import Mathlib

/-!
Shallow embedding of the IVI digit-propagation factorization engine
(src/common.js, src/pruning_algorithm.js) and proofs about it.

Conventions of the embedding:
* JavaScript `BigInt` values (all of which are non-negative here) are `Nat`;
  the handful of BigInt expressions that the source compares against negative
  literals (`gap < 0n`) are computed in `Int`, mirroring the source exactly.
* Digit arrays are `List Nat`, least-significant digit first, as in the source.
* The `while` loops of the source (`integerSqrt`'s Newton iteration, the
  base-conversion loop) are embedded with explicit fuel; `none` models a run
  of the source that never terminates.  The chosen fuel is large enough that
  every terminating run of the source is reproduced exactly (the Newton
  iterate strictly decreases from `n` until it either reaches a fixpoint or
  enters the 2-cycle `a ↔ a+1`, so `n + 2` steps suffice; the division loop
  of the base conversion runs at most `n` times for `base ≥ 2`).
* Purely cosmetic fields of the source records (`lastTwoDigits` strings,
  `parentIdx`, the visualisation `history`, the instrumentation counters
  `nodesVisited`/`nodesPruned`/`activeBranches`/`maxFrontierWidth`) are not
  modelled; no control flow depends on them.
-/

namespace IVI

/-- The 10×10 lookup table `DIGIT_MULT_TABLE` of src/common.js, reduced to its
`p` (full product) field, which is the only field the engine reads. -/
def DIGIT_MULT_TABLE : List (List Nat) :=
  [[0, 0, 0, 0, 0, 0, 0, 0, 0, 0],
   [0, 1, 2, 3, 4, 5, 6, 7, 8, 9],
   [0, 2, 4, 6, 8, 10, 12, 14, 16, 18],
   [0, 3, 6, 9, 12, 15, 18, 21, 24, 27],
   [0, 4, 8, 12, 16, 20, 24, 28, 32, 36],
   [0, 5, 10, 15, 20, 25, 30, 35, 40, 45],
   [0, 6, 12, 18, 24, 30, 36, 42, 48, 54],
   [0, 7, 14, 21, 28, 35, 42, 49, 56, 63],
   [0, 8, 16, 24, 32, 40, 48, 56, 64, 72],
   [0, 9, 18, 27, 36, 45, 54, 63, 72, 81]]

/-- `multiplyDigits` of src/common.js: table lookup of the digit product.
(Out-of-range indices, which the engine never produces, default to 0.) -/
def multiplyDigits (a b : Nat) : Nat :=
  (DIGIT_MULT_TABLE.getD a []).getD b 0

/-- `powerOf10` of src/common.js (the memo cache is semantically invisible). -/
def powerOf10 (k : Nat) : Nat := 10 ^ k

/-- `powerOfBase` of src/common.js. -/
def powerOfBase (base exponent : Nat) : Nat := base ^ exponent

/-- The Newton iteration loop of `integerSqrt` (src/common.js):
`prev := x; x := (x + n / x) / 2` repeated `while x ≠ prev`.  One fuel unit
per loop iteration; `none` models non-termination of the source loop. -/
def integerSqrtLoop : Nat → Nat → Nat → Option Nat
  | 0, _, _ => none
  | fuel + 1, n, x =>
    let next := (x + n / x) / 2
    if next = x then some x else integerSqrtLoop fuel n next

/-- `integerSqrt` of src/common.js.  `none` models the (real) divergence of
the source's `while (x !== prev)` loop, e.g. at `n = 15`. -/
def integerSqrtO (n : Nat) : Option Nat :=
  if n = 0 then some 0
  else if n = 1 then some 1
  else integerSqrtLoop (n + 2) n n

/-- The digit-extraction loop of `numberToBaseDigits` (src/common.js):
`while num > 0: digits.push(num % base); num := num / base`.  Fuel `n`
suffices for every `base ≥ 2` (the only bases the caller admits). -/
def toBaseDigitsAux : Nat → Nat → Nat → List Nat
  | 0, _, _ => []
  | fuel + 1, base, n =>
    if n = 0 then [] else n % base :: toBaseDigitsAux fuel base (n / base)

/-- LSD-first digit list of `n` in `base`, as computed by the source loop. -/
def toBaseDigits (base n : Nat) : List Nat := toBaseDigitsAux n base n

/-- The digit sequence `N.toString().split('').reverse().map(Number)` used by
`initializeAlgorithm` of src/pruning_algorithm.js: decimal digits of `N`,
least significant first, `[0]` for `N = 0`. -/
def natToDigits10 (n : Nat) : List Nat :=
  if n = 0 then [0] else toBaseDigits 10 n

/-- `digitsToBigInt` of src/common.js: indexed loop summing
`digits[i] * 10^i`. -/
def digitsToBigInt (digits : List Nat) : Nat :=
  (List.range digits.length).foldl (fun acc i => acc + digits.getD i 0 * powerOf10 i) 0

/-- A search-tree node, the element type of a frontier
(src/pruning_algorithm.js `workFunction` output states).  The cosmetic
`lastTwoDigits` string is omitted; `pk`/`qk` record the digit pair chosen
(0 in the initial node, which carries no such fields in the source). -/
structure Branch where
  k : Nat
  p_history : List Nat
  q_history : List Nat
  P_value : Nat
  Q_value : Nat
  carry_in : Nat
  pk : Nat
  qk : Nat
deriving DecidableEq, Repr

/-- `checkSolution` of src/common.js. -/
def checkSolution (branch : Branch) (N : Nat) : Bool :=
  decide (1 < branch.P_value) && decide (1 < branch.Q_value) &&
    (branch.P_value * branch.Q_value == N)

/-- The input record of `workFunction` / `workFunctionBase`. -/
structure WorkInput where
  k : Nat
  p_history : List Nat
  q_history : List Nat
  P_value : Nat
  Q_value : Nat
  carry_in : Nat
  N_digits : List Nat
  N : Nat
  sqrtN : Nat
deriving DecidableEq, Repr

/-- Return value of `globalFeasible` (src/pruning_algorithm.js): a pruning
step number 1-9, `0` (feasible), or `true` (exact match at termination). -/
inductive Feasibility where
  | pruned (step : Nat)
  | feasible
  | exactMatch
deriving DecidableEq, Repr

/-- `M`, the maximum tail value `10^remainingDigits - 1` of `globalFeasible`. -/
def tailMax (remainingDigits : Nat) : Int :=
  (powerOf10 remainingDigits : Int) - 1

/-- `gap = N - P_value * Q_value` of `globalFeasible` (BigInt, may be probed
against 0 before the overshoot check has constrained it). -/
def gapOf (P_value Q_value N : Nat) : Int :=
  (N : Int) - (P_value * Q_value : Nat)

/-- `maxLinearTerm = 10^k * (P*M + Q*M)` of `globalFeasible`. -/
def maxLinearTermOf (P_value Q_value k remainingDigits : Nat) : Int :=
  (powerOf10 k : Int) *
    ((P_value : Int) * tailMax remainingDigits + (Q_value : Int) * tailMax remainingDigits)

/-- `maxQuadraticTerm = 10^(2k) * M*M` of `globalFeasible`. -/
def maxQuadraticTermOf (k remainingDigits : Nat) : Int :=
  (powerOf10 (2 * k) : Int) * (tailMax remainingDigits * tailMax remainingDigits)

/-- `minContribution` of `globalFeasible` check 6: zero tail in general,
forced non-zero leading digits (`minA = minB = 1`) when one digit remains. -/
def minContributionOf (P_value Q_value k remainingDigits : Nat) : Int :=
  let minA : Int := if remainingDigits = 1 then 1 else 0
  let minB : Int := if remainingDigits = 1 then 1 else 0
  (powerOf10 k : Int) * ((P_value : Int) * minB + (Q_value : Int) * minA) +
    (powerOf10 (2 * k) : Int) * (minA * minB)

/-- `Pmax = P_value + M * 10^k`, the largest completion of a partial value. -/
def upperTailMaxOf (value k remainingDigits : Nat) : Int :=
  (value : Int) + tailMax remainingDigits * (powerOf10 k : Int)

/-- `globalFeasible` of src/pruning_algorithm.js, the nine-check pruning
cascade.  The `state` parameter of the source is unused by the checks and is
omitted.  Check 6's source guard `if (gap > 0n) { if (min > gap) return 6 }`
is the single conjunction below; the second `if (maxLinearTerm +
maxQuadraticTerm < gap) return 5` is source check 7 verbatim. -/
def globalFeasible (P_value Q_value N k totalDigits sqrtN : Nat) : Feasibility :=
  let remainingDigits := totalDigits - k
  -- #1 symmetry elimination
  if P_value > Q_value then .pruned 1
  -- #2 exact termination rule
  else if remainingDigits = 0 then
    if P_value ≤ 1 ∨ Q_value ≤ 1 then .pruned 2
    else if P_value = 0 ∨ Q_value = 0 then .pruned 2  -- dead in source too
    else if P_value * Q_value = N then .exactMatch else .pruned 2
  -- #3 immediate overshoot
  else if P_value * Q_value > N then .pruned 3
  -- #4 sqrt-based hard bound
  else if P_value > sqrtN then .pruned 4
  -- safety re-check of the source (dead: gap ≥ 0 after check 3)
  else if gapOf P_value Q_value N < 0 then .pruned 3
  -- #5 explicit growth envelope
  else if maxLinearTermOf P_value Q_value k remainingDigits +
            maxQuadraticTermOf k remainingDigits < gapOf P_value Q_value N then .pruned 5
  -- #6 minimum contribution (only applied when the gap is positive)
  else if 0 < gapOf P_value Q_value N ∧
            minContributionOf P_value Q_value k remainingDigits >
              gapOf P_value Q_value N then .pruned 6
  -- #7 linear-term gap feasibility: the source tests check 5's condition
  -- again and returns tag 5 ("already checked above")
  else if maxLinearTermOf P_value Q_value k remainingDigits +
            maxQuadraticTermOf k remainingDigits < gapOf P_value Q_value N then .pruned 5
  -- #8 upper tail tightening
  else if upperTailMaxOf P_value k remainingDigits ≤ (sqrtN : Int) then
    let Pmax := upperTailMaxOf P_value k remainingDigits
    let minRequiredQ := ((N : Int) + Pmax - 1) / Pmax
    if upperTailMaxOf Q_value k remainingDigits < minRequiredQ then .pruned 8
    else .feasible
  -- #9 length split: not implemented in the source
  else .feasible

/-- Outcome of one `(pk, qk)` iteration of the work-function loop body:
skipped by a `continue` before the cascade ran, pruned by cascade step `j`,
or emitted as a child state. -/
inductive CandOutcome where
  | skip
  | prunedBy (j : Nat)
  | emit (b : Branch)
deriving DecidableEq, Repr

/-- The interior pre-computed sum of `workFunction`: terms `i = 2 .. k-1` of
the convolution, i.e. `p_history[i-1] * q_history[k-i]`, each guarded by the
source's index-bounds test. -/
def baseSumOf (k : Nat) (p_history q_history : List Nat) : Nat :=
  (List.range' 2 (k - 2)).foldl
    (fun acc i =>
      acc + (if i - 1 < p_history.length ∧ k - i < q_history.length
             then multiplyDigits (p_history.getD (i - 1) 0) (q_history.getD (k - i) 0)
             else 0))
    0

/-- `sumOfProducts` of `workFunction`: `pk*qk` at `k = 1`, otherwise the
cached interior sum plus the two boundary terms `p1*qk` and `pk*q1`. -/
def sumOfProductsOf (k : Nat) (p_history q_history : List Nat) (pk qk : Nat) : Nat :=
  if k = 1 then multiplyDigits pk qk
  else baseSumOf k p_history q_history +
    multiplyDigits (p_history.getD 0 0) qk + multiplyDigits pk (q_history.getD 0 0)

/-- One iteration of the digit-pair loop of `workFunction`
(src/pruning_algorithm.js lines 272-348).  The quantities the source hoists
out of the loop (`target_digit`, `maxCarryOut`, `baseSum`, `p1`, `q1`) are
pure functions of the input and are recomputed here. -/
def processPair (input : WorkInput) (pk qk : Nat) : CandOutcome :=
  let k := input.k
  let target_digit := input.N_digits.getD (k - 1) 0
  let isLastDigit := k = input.N_digits.length
  let maxCarryOut := (81 * k + input.carry_in) / 10
  let sumOfProducts := sumOfProductsOf k input.p_history input.q_history pk qk
  let total := sumOfProducts + input.carry_in
  if total < target_digit then .skip
  else
    let remainder := total - target_digit
    if remainder % 10 = 0 then
      let carry_out := remainder / 10
      -- `carry_out < 0` of the source is impossible over Nat
      if carry_out > maxCarryOut ∨ (isLastDigit ∧ carry_out ≠ 0) then .skip
      else
        let powerK := powerOf10 (k - 1)
        let new_P_value := input.P_value + pk * powerK
        let new_Q_value := input.Q_value + qk * powerK
        match globalFeasible new_P_value new_Q_value input.N k
                input.N_digits.length input.sqrtN with
        | .pruned j => .prunedBy j
        | _ =>  -- feasible or exactMatch: push the child state
          .emit { k := k + 1
                  p_history := input.p_history ++ [pk]
                  q_history := input.q_history ++ [qk]
                  P_value := new_P_value
                  Q_value := new_Q_value
                  carry_in := carry_out
                  pk := pk, qk := qk }
    else .skip

/-- Output of `workFunction` / `workFunctionBase`: surviving child states in
generation order plus the per-call pruning statistics (count of candidates
the cascade rejected, keyed by check number). -/
structure WorkOutput where
  states : List Branch
  pruningStats : Nat → Nat

/-- The `(pk, qk)` enumeration order of the nested source loops:
`pk` outer, `qk` inner, both `0 .. base-1`. -/
def digitPairs (base : Nat) : List (Nat × Nat) :=
  (List.range base).flatMap (fun pk => (List.range base).map (fun qk => (pk, qk)))

/-- `workFunction` of src/pruning_algorithm.js.  The single source loop that
both pushes child states and increments `pruningStats` is split into
`processPair` plus an order-preserving `filterMap` (states) and a count
(statistics); the source guard `!N_digits` is always false in JS for an
array (even an empty one) and is dropped. -/
def workFunction (input : WorkInput) : WorkOutput :=
  if input.k < 1 ∨ input.N_digits.length < input.k then ⟨[], fun _ => 0⟩
  else
    { states := (digitPairs 10).filterMap (fun pr =>
        match processPair input pr.1 pr.2 with
        | .emit b => some b
        | _ => none)
      pruningStats := fun j =>
        ((digitPairs 10).filter (fun pr =>
          match processPair input pr.1 pr.2 with
          | .prunedBy i => i == j
          | _ => false)).length }

/-- The algorithm state of src/pruning_algorithm.js (`initializeAlgorithm` /
`stepAlgorithm`).  `foundP`/`foundQ` are the numeric values of the source's
result strings, 0 while unset; the visualisation `history` and the
instrumentation counters are omitted. -/
structure AlgState where
  p : Nat
  q : Nat
  N : Nat
  sqrtN : Nat
  N_digits : List Nat
  frontier : List Branch
  step : Nat
  success : Bool
  foundP : Nat
  foundQ : Nat
  done : Bool
deriving DecidableEq, Repr

/-- The frontier expansion of `stepAlgorithm`: every branch of the frontier
is fed to `workFunction` at position `currentK` and the resulting child
lists are concatenated in frontier order. -/
def expandFrontier (state : AlgState) (currentK : Nat) : List Branch :=
  state.frontier.flatMap (fun branch =>
    (workFunction { k := currentK
                    p_history := branch.p_history
                    q_history := branch.q_history
                    P_value := branch.P_value
                    Q_value := branch.Q_value
                    carry_in := branch.carry_in
                    N_digits := state.N_digits
                    N := state.N
                    sqrtN := state.sqrtN }).states)

/-- `stepAlgorithm` of src/pruning_algorithm.js: one frontier transition.
The source scans `allResults` for the first branch with zero carry that
passes `checkSolution`; `List.find?` reproduces that first-match scan. -/
def stepAlgorithm (state : AlgState) : AlgState :=
  -- `currentK = state.step + 1`; `allResults = expandFrontier state currentK`
  if state.N_digits.length < state.step + 1 then { state with done := true }
  else if (expandFrontier state (state.step + 1)).isEmpty then { state with done := true }
  else if state.step + 1 = state.N_digits.length then
    match (expandFrontier state (state.step + 1)).find?
        (fun b => b.carry_in == 0 && checkSolution b state.N) with
    | some b =>
      { state with step := state.step + 1, frontier := expandFrontier state (state.step + 1),
                   success := true, foundP := b.P_value, foundQ := b.Q_value }
    | none => { state with done := true }
  else
    { state with step := state.step + 1, frontier := expandFrontier state (state.step + 1) }

/-- `initializeAlgorithm` of src/pruning_algorithm.js.  `none` models the
case in which the source's `integerSqrt(N)` never terminates (so no state is
ever produced). -/
def initializeAlgorithm (p q : Nat) : Option AlgState :=
  let N := p * q
  (integerSqrtO N).map (fun sqrtN =>
    { p := p, q := q, N := N, sqrtN := sqrtN
      N_digits := natToDigits10 N
      frontier := [{ k := 1, p_history := [], q_history := [],
                     P_value := 0, Q_value := 0, carry_in := 0, pk := 0, qk := 0 }]
      step := 0, success := false, foundP := 0, foundQ := 0, done := false })

/-- Driving the engine: `n` invocations of `stepAlgorithm` (the caller loop;
`stepAlgorithm` is a fixpoint once `done` or `success` holds at the last
position, so any sufficiently large `n` reaches the terminal state). -/
def runSteps : Nat → AlgState → AlgState
  | 0, s => s
  | n + 1, s => runSteps n (stepAlgorithm s)

/-! The base-generalized engine of src/common.js. -/

/-- The interior pre-computed sum of `workFunctionBase` (plain products, no
lookup table). -/
def baseSumBase (k : Nat) (p_history q_history : List Nat) : Nat :=
  (List.range' 2 (k - 2)).foldl
    (fun acc i =>
      acc + (if i - 1 < p_history.length ∧ k - i < q_history.length
             then p_history.getD (i - 1) 0 * q_history.getD (k - i) 0
             else 0))
    0

/-- `sumOfProducts` of `workFunctionBase`. -/
def sumOfProductsBase (k : Nat) (p_history q_history : List Nat) (pk qk : Nat) : Nat :=
  if k = 1 then pk * qk
  else baseSumBase k p_history q_history +
    p_history.getD 0 0 * qk + pk * q_history.getD 0 0

/-- The child state pushed by `workFunctionBase` for a surviving `(pk, qk)`. -/
def mkChildBase (input : WorkInput) (base pk qk : Nat) : Branch :=
  let k := input.k
  let target_digit := input.N_digits.getD (k - 1) 0
  let total := sumOfProductsBase k input.p_history input.q_history pk qk + input.carry_in
  let powerK := powerOfBase base (k - 1)
  { k := k + 1
    p_history := input.p_history ++ [pk]
    q_history := input.q_history ++ [qk]
    P_value := input.P_value + pk * powerK
    Q_value := input.Q_value + qk * powerK
    carry_in := (total - target_digit) / base
    pk := pk, qk := qk }

/-- One iteration of the digit-pair loop of `workFunctionBase`
(src/common.js lines 258-344).  The symmetry prune of the base-10 cascade is
deliberately absent (source comment: partial values do not determine final
ordering); the inline checks run in source order 3, 4, 2, 5. -/
def processPairBase (input : WorkInput) (base pk qk : Nat) : CandOutcome :=
  let k := input.k
  let target_digit := input.N_digits.getD (k - 1) 0
  let isLastDigit := k = input.N_digits.length
  let totalDigits := input.N_digits.length
  let maxCarryOut := ((base - 1) * (base - 1) * k + input.carry_in) / base
  let total := sumOfProductsBase k input.p_history input.q_history pk qk + input.carry_in
  if total < target_digit then .skip
  else
    let remainder := total - target_digit
    if remainder % base = 0 then
      let carry_out := remainder / base
      if carry_out > maxCarryOut ∨ (isLastDigit ∧ carry_out ≠ 0) then .skip
      else
        let powerK := powerOfBase base (k - 1)
        let new_P_value := input.P_value + pk * powerK
        let new_Q_value := input.Q_value + qk * powerK
        -- #3 immediate overshoot
        if new_P_value * new_Q_value > input.N then .prunedBy 3
        -- #4 sqrt-based bound
        else if new_P_value > input.sqrtN then .prunedBy 4
        else
          let remainingDigits := totalDigits - k
          -- #2 exact termination rule
          if remainingDigits = 0 ∧ (new_P_value ≤ 1 ∨ new_Q_value ≤ 1) then .prunedBy 2
          else if remainingDigits = 0 ∧ new_P_value * new_Q_value ≠ input.N then .prunedBy 2
          -- #5 growth envelope
          else if 0 < remainingDigits ∧
              (new_P_value + (powerOfBase base remainingDigits - 1) * powerOfBase base k) *
              (new_Q_value + (powerOfBase base remainingDigits - 1) * powerOfBase base k) <
                input.N then .prunedBy 5
          else .emit (mkChildBase input base pk qk)
    else .skip

/-- `workFunctionBase` of src/common.js, split like `workFunction` into a
per-pair outcome plus an order-preserving `filterMap` and per-check counts. -/
def workFunctionBase (input : WorkInput) (base : Nat) : WorkOutput :=
  if input.k < 1 ∨ input.N_digits.length < input.k then ⟨[], fun _ => 0⟩
  else
    { states := (digitPairs base).filterMap (fun pr =>
        match processPairBase input base pr.1 pr.2 with
        | .emit b => some b
        | _ => none)
      pruningStats := fun j =>
        ((digitPairs base).filter (fun pr =>
          match processPairBase input base pr.1 pr.2 with
          | .prunedBy i => i == j
          | _ => false)).length }

/-- The error text thrown by `numberToBaseDigits` for an out-of-range base. -/
def baseRangeError (base : Nat) : String :=
  "Base must be between 2 and 36, got " ++ toString base

/-- `numberToBaseDigits` of src/common.js; the `throw` is an `Except.error`. -/
def numberToBaseDigits (n base : Nat) : Except String (List Nat) :=
  if base < 2 ∨ 36 < base then .error (baseRangeError base)
  else if n = 0 then .ok [0]
  else
    let digits := toBaseDigits base n
    .ok (if digits.isEmpty then [0] else digits)

/-- The per-base algorithm state of src/common.js
(`initializeAlgorithmBase`); timing fields omitted. -/
structure BaseAlgState where
  base : Nat
  p : Nat
  q : Nat
  N : Nat
  sqrtN : Nat
  N_digits : List Nat
  frontier : List Branch
  step : Nat
  success : Bool
deriving DecidableEq, Repr

/-- `initializeAlgorithmBase` of src/common.js.  The source computes
`N_digits` (which may throw) strictly before `integerSqrt(N)` (which may
diverge), so `Except.error` takes precedence over the inner `none`. -/
def initializeAlgorithmBase (p q base : Nat) : Except String (Option BaseAlgState) :=
  let N := p * q
  match numberToBaseDigits N base with
  | .error e => .error e
  | .ok N_digits =>
    .ok ((integerSqrtO N).map (fun sqrtN =>
      { base := base, p := p, q := q, N := N, sqrtN := sqrtN
        N_digits := N_digits
        frontier := [{ k := 1, p_history := [], q_history := [],
                       P_value := 0, Q_value := 0, carry_in := 0, pk := 0, qk := 0 }]
        step := 0, success := false }))

/-! Specification-side definitions (written from the words of the spec, for
the refinement comparisons; everything above is from the source). -/

/-- Spec-side convolution sum of §4.1 step 1: `Σ over i = 1..k` of
(digit `i` of P) × (digit `k-i+1` of Q), where digit `k` of P is `pk`,
digit `k` of Q is `qk`, and all other digits come from history (LSD-first,
so digit `i` is history index `i-1`).  Below, `j = i - 1` runs over
`range k`. -/
def convolutionSum (k : Nat) (p_history q_history : List Nat) (pk qk : Nat) : Nat :=
  ((List.range k).map (fun j =>
    (if j + 1 = k then pk else p_history.getD j 0) *
    (if j = 0 then qk else q_history.getD (k - j - 1) 0))).sum

/-- Spec-side meaning of an LSD-first digit list in base `b`. -/
def baseDigitsVal (b : Nat) : List Nat → Nat
  | [] => 0
  | d :: ds => d + b * baseDigitsVal b ds

/-! Helper lemmas. -/

/-- The lookup table agrees with multiplication on genuine digits. -/
lemma multiplyDigits_eq : ∀ a < 10, ∀ b < 10, multiplyDigits a b = a * b := by decide

lemma foldl_add_eq (g : Nat → Nat) :
    ∀ (l : List Nat) (s : Nat), l.foldl (fun acc i => acc + g i) s = s + (l.map g).sum := by
  intro l
  induction l with
  | nil => simp
  | cons a l ih => intro s; simp [ih, Nat.add_assoc]

lemma sum_map_range (f : Nat → Nat) (n : Nat) :
    ((List.range n).map f).sum = ∑ j ∈ Finset.range n, f j := by
  induction n with
  | zero => simp
  | succ n ih => rw [List.range_succ]; simp [ih, Finset.sum_range_succ]

lemma digitsToBigInt_eq_val (l : List Nat) : digitsToBigInt l = baseDigitsVal 10 l := by
  induction l with
  | nil => rfl
  | cons d ds ih =>
    have hrw : digitsToBigInt (d :: ds) =
        ((List.range (ds.length + 1)).map
          (fun i => (d :: ds).getD i 0 * powerOf10 i)).sum := by
      simp [digitsToBigInt, foldl_add_eq]
    have hrw2 : digitsToBigInt ds =
        ((List.range ds.length).map (fun i => ds.getD i 0 * powerOf10 i)).sum := by
      simp [digitsToBigInt, foldl_add_eq]
    rw [hrw, List.range_succ_eq_map, List.map_cons, List.sum_cons, List.map_map]
    have hterm : ∀ i, ((d :: ds).getD (Nat.succ i) 0 * powerOf10 (Nat.succ i)) =
        10 * (ds.getD i 0 * powerOf10 i) := by
      intro i
      simp [powerOf10, Nat.pow_succ]
      ring
    have : List.map ((fun i => (d :: ds).getD i 0 * powerOf10 i) ∘ Nat.succ) (List.range ds.length)
        = List.map (fun i => 10 * (ds.getD i 0 * powerOf10 i)) (List.range ds.length) := by
      refine List.map_congr_left fun i _ => ?_
      simpa using hterm i
    rw [this, List.sum_map_mul_left, baseDigitsVal, ← hrw2, ih]
    simp [powerOf10]

lemma baseDigitsVal_append_singleton (b : Nat) (l : List Nat) (d : Nat) :
    baseDigitsVal b (l ++ [d]) = baseDigitsVal b l + d * b ^ l.length := by
  induction l with
  | nil => simp [baseDigitsVal]
  | cons a l ih => simp [baseDigitsVal, ih]; ring

lemma digitsToBigInt_append_singleton (l : List Nat) (d : Nat) :
    digitsToBigInt (l ++ [d]) = digitsToBigInt l + d * powerOf10 l.length := by
  simp [digitsToBigInt_eq_val, baseDigitsVal_append_singleton, powerOf10]

/-- A digit list of a given length is determined by its value: base-`b`
representations of equal length, with all digits `< b`, are unique. -/
lemma baseDigits_unique (b : Nat) :
    ∀ (l₁ l₂ : List Nat), l₁.length = l₂.length →
      (∀ d ∈ l₁, d < b) → (∀ d ∈ l₂, d < b) →
      baseDigitsVal b l₁ = baseDigitsVal b l₂ → l₁ = l₂ := by
  intro l₁
  induction l₁ with
  | nil => intro l₂ hlen _ _ _; exact (List.length_eq_zero.mp hlen.symm).symm
  | cons d₁ t₁ ih =>
    intro l₂ hlen hb₁ hb₂ hval
    cases l₂ with
    | nil => simp at hlen
    | cons d₂ t₂ =>
      have hd₁ : d₁ < b := hb₁ d₁ (by simp)
      have hd₂ : d₂ < b := hb₂ d₂ (by simp)
      have hpos : 0 < b := by omega
      simp only [baseDigitsVal] at hval
      have hmod : d₁ = d₂ := by
        have h₁ : (d₁ + b * baseDigitsVal b t₁) % b = d₁ := by
          simp [Nat.add_mul_mod_self_left, Nat.mod_eq_of_lt hd₁]
        have h₂ : (d₂ + b * baseDigitsVal b t₂) % b = d₂ := by
          simp [Nat.add_mul_mod_self_left, Nat.mod_eq_of_lt hd₂]
        rw [← h₁, ← h₂, hval]
      subst hmod
      have htail : baseDigitsVal b t₁ = baseDigitsVal b t₂ :=
        Nat.eq_of_mul_eq_mul_left hpos (by omega)
      have := ih t₂ (by simpa using hlen)
        (fun d hd => hb₁ d (by simp [hd])) (fun d hd => hb₂ d (by simp [hd])) htail
      rw [this]

/-- Membership in `digitPairs`. -/
lemma mem_digitPairs {base pk qk : Nat} :
    (pk, qk) ∈ digitPairs base ↔ pk < base ∧ qk < base := by
  simp [digitPairs, List.mem_flatMap, List.mem_map, List.mem_range]

/-- What an emitted child of the base-10 work-function loop looks like. -/
lemma processPair_emit {input : WorkInput} {pk qk : Nat} {s : Branch}
    (h : processPair input pk qk = .emit s) :
    s.p_history = input.p_history ++ [pk] ∧
    s.q_history = input.q_history ++ [qk] ∧
    s.P_value = input.P_value + pk * powerOf10 (input.k - 1) ∧
    s.Q_value = input.Q_value + qk * powerOf10 (input.k - 1) ∧
    s.k = input.k + 1 ∧
    s.carry_in ≤ (81 * input.k + input.carry_in) / 10 ∧
    (input.k = input.N_digits.length → s.carry_in = 0) := by
  simp only [processPair] at h
  split at h
  · exact absurd h (by simp)
  · split at h
    · split at h
      · exact absurd h (by simp)
      · rename_i hguard
        push_neg at hguard
        split at h
        · exact absurd h (by simp)
        · rw [CandOutcome.emit.injEq] at h
          subst h
          refine ⟨rfl, rfl, rfl, rfl, rfl, hguard.1, fun hlast => hguard.2 hlast⟩
    · exact absurd h (by simp)

/-- Every state of `workFunction`'s output comes from some emitted pair. -/
lemma mem_workFunction_states {input : WorkInput} {s : Branch}
    (h : s ∈ (workFunction input).states) :
    ∃ pk qk, pk < 10 ∧ qk < 10 ∧ processPair input pk qk = .emit s := by
  unfold workFunction at h
  split at h
  · simp at h
  · simp only [List.mem_filterMap] at h
    obtain ⟨pr, hpr, heq⟩ := h
    refine ⟨pr.1, pr.2, ?_, ?_, ?_⟩
    · exact (mem_digitPairs.mp (by simpa using hpr)).1
    · exact (mem_digitPairs.mp (by simpa using hpr)).2
    · revert heq
      split
      · rename_i b heqm
        intro h; cases h; exact heqm
      · intro h; cases h

/-- A pruned outcome of the base-10 loop body carries the cascade's verdict. -/
lemma processPair_prunedBy {input : WorkInput} {pk qk j : Nat}
    (h : processPair input pk qk = .prunedBy j) :
    globalFeasible (input.P_value + pk * powerOf10 (input.k - 1))
      (input.Q_value + qk * powerOf10 (input.k - 1)) input.N input.k
      input.N_digits.length input.sqrtN = .pruned j := by
  simp only [processPair] at h
  split at h
  · exact absurd h (by simp)
  · split at h
    · split at h
      · exact absurd h (by simp)
      · split at h
        · rename_i j' heqm
          cases h
          exact heqm
        · exact absurd h (by simp)
    · exact absurd h (by simp)

/-- The cascade never returns verdict 7: the linear-term restatement re-tests
check 5's own condition, which has already been ruled out. -/
lemma globalFeasible_ne_pruned7 (P Q N k total sqrtN : Nat) :
    globalFeasible P Q N k total sqrtN ≠ .pruned 7 := by
  simp only [globalFeasible]
  repeat' split
  all_goals simp

/-! Claim C1. -/

/-- The state `initializeAlgorithm(19, 23)` produces (digits of 437 LSD-first,
`⌊√437⌋ = 20`, one empty node). -/
def c1Init : AlgState :=
  { p := 19, q := 23, N := 437, sqrtN := 20, N_digits := [7, 3, 4]
    frontier := [{ k := 1, p_history := [], q_history := [],
                   P_value := 0, Q_value := 0, carry_in := 0, pk := 0, qk := 0 }]
    step := 0, success := false, foundP := 0, foundQ := 0, done := false }

/-- C1 fails on the code: `437 = 19 × 23` with `1 < 19 ≤ 23`, yet driving the
base-10 engine from its initial state terminates with `done = true` and
`success = false` — no factorization is ever reported.  The true branch is
removed at `k = 1`: its digit pair `(p₁, q₁) = (9, 3)` gives partial values
`P = 9 > Q = 3`, which check 1 of `globalFeasible` (symmetry) prunes, even
though the completed factors satisfy `19 ≤ 23`.  (Additionally, for the
spec's own scenario `N = 15` the engine's `integerSqrt` Newton loop never
terminates, modelled here as `initializeAlgorithm 3 5 = none`.) -/
theorem C1_symmetry_prune_removes_true_branch :
    (19 : Nat) * 23 = 437 ∧ (1 : Nat) < 19 ∧ (19 : Nat) ≤ 23 ∧
    initializeAlgorithm 19 23 = some c1Init ∧
    (runSteps 3 c1Init).done = true ∧
    (runSteps 3 c1Init).success = false ∧
    globalFeasible 9 3 437 1 3 20 = .pruned 1 ∧
    initializeAlgorithm 3 5 = none := by
  set_option maxHeartbeats 1000000 in decide

/-! Claim C3. -/

/-- C3: every child emitted by the base-10 `workFunction` at position `k`
carries an outgoing carry (a `Nat`, hence non-negative) bounded by
`⌊(81·k + carry_in)/10⌋`, and a child emitted at the final digit position
(`k` = number of digits of `N`) has outgoing carry exactly 0. -/
theorem C3_carry_envelope (input : WorkInput) (s : Branch)
    (hs : s ∈ (workFunction input).states) :
    s.carry_in ≤ (81 * input.k + input.carry_in) / 10 ∧
    (input.k = input.N_digits.length → s.carry_in = 0) := by
  obtain ⟨pk, qk, -, -, hemit⟩ := mem_workFunction_states hs
  obtain ⟨-, -, -, -, -, hbound, hlast⟩ := processPair_emit hemit
  exact ⟨hbound, hlast⟩

/-- Concrete input for the C3 witness: the initial node for `N = 21`. -/
def c3Input : WorkInput :=
  { k := 1, p_history := [], q_history := [], P_value := 0, Q_value := 0,
    carry_in := 0, N_digits := [1, 2], N := 21, sqrtN := 4 }

/-- Concrete emitted child for the C3 witness: the `(3, 7)` branch. -/
def c3Child : Branch :=
  { k := 2, p_history := [3], q_history := [7], P_value := 3, Q_value := 7,
    carry_in := 2, pk := 3, qk := 7 }

theorem C3_carry_envelope_witness :
    c3Child.carry_in ≤ (81 * c3Input.k + c3Input.carry_in) / 10 ∧
    (c3Input.k = c3Input.N_digits.length → c3Child.carry_in = 0) :=
  C3_carry_envelope c3Input c3Child (by decide)

/-! Claim C6. -/

/-- Concrete input for the C6 counterexample: the initial node for `N = 30`. -/
def c6Input : WorkInput :=
  { k := 1, p_history := [], q_history := [], P_value := 0, Q_value := 0,
    carry_in := 0, N_digits := [0, 3], N := 30, sqrtN := 5 }

/-- The `(5, 6)` child of `c6Input`: partial product `5 × 6 = 30 = N`. -/
def c6Child : Branch :=
  { k := 2, p_history := [5], q_history := [6], P_value := 5, Q_value := 6,
    carry_in := 3, pk := 5, qk := 6 }

/-- C6 as stated is false on the code.  The engine-reachable candidate
`(P, Q) = (5, 6)` for `N = 30` at `k = 1` (one digit remaining, so the
claim's forced `minA = minB = 1` applies) has minimum future contribution
`10·(5+6) + 100 = 210`, which strictly exceeds the remaining gap
`30 − 30 = 0`; yet the cascade returns `feasible` and `workFunction` emits
the child, because the source only runs check 6 when `gap > 0`. -/
theorem C6_counterexample_zero_gap :
    globalFeasible 5 6 30 1 2 5 = .feasible ∧
    gapOf 5 6 30 < minContributionOf 5 6 1 (2 - 1) ∧
    (0 : Nat) < 2 - 1 ∧
    c6Child ∈ (workFunction c6Input).states ∧
    integerSqrtO 30 = some 5 := by decide

/-- C6 amended: for every candidate reaching check 6 (checks 1-5 passed,
digits remaining) whose remaining gap is *strictly positive*, the cascade
rejects it with verdict 6 whenever the minimum possible future contribution
(zero tail, or forced non-zero leading digits when one digit remains)
strictly exceeds the gap; when the gap is zero the check is skipped. -/
theorem C6_min_contribution_pruning (P Q N k total sqrtN : Nat)
    (h1 : P ≤ Q)
    (h2 : total - k ≠ 0)
    (h3 : P * Q ≤ N)
    (h4 : P ≤ sqrtN)
    (h5 : ¬ (maxLinearTermOf P Q k (total - k) + maxQuadraticTermOf k (total - k) <
              gapOf P Q N))
    (h6 : 0 < gapOf P Q N)
    (h7 : gapOf P Q N < minContributionOf P Q k (total - k)) :
    globalFeasible P Q N k total sqrtN = .pruned 6 := by
  have hg : ¬ gapOf P Q N < 0 := by
    simp only [gapOf]
    push_cast
    omega
  simp only [globalFeasible]
  rw [if_neg (by omega : ¬ P > Q), if_neg h2, if_neg (by omega : ¬ P * Q > N),
    if_neg (by omega : ¬ P > sqrtN), if_neg hg, if_neg h5, if_pos ⟨h6, h7⟩]

/-- Witness for the amended C6: the engine-reachable candidate `(1, 37)` for
`N = 437` at `k = 2` (gap 400, minimum contribution 13800) is pruned with
verdict 6. -/
theorem C6_min_contribution_pruning_witness :
    globalFeasible 1 37 437 2 3 20 = .pruned 6 :=
  C6_min_contribution_pruning 1 37 437 2 3 20 (by decide) (by decide) (by decide)
    (by decide) (by decide) (by decide) (by decide)

/-! Claim C7. -/

/-- C7: the linear-term restatement (check 7) never fires.  Once check 5 has
passed, its condition — which is syntactically check 5's condition again —
cannot hold, so `globalFeasible` never returns verdict 7 on any input and the
separately-tracked pruning-statistics entry 7 of `workFunction` is always 0
(so the conditional "when it rejects, the verdict carries tag 7" holds
vacuously). -/
theorem C7_linear_term_check_never_fires :
    (∀ P Q N k total sqrtN : Nat,
      globalFeasible P Q N k total sqrtN ≠ .pruned 7) ∧
    (∀ input : WorkInput, (workFunction input).pruningStats 7 = 0) := by
  refine ⟨globalFeasible_ne_pruned7, fun input => ?_⟩
  unfold workFunction
  split
  · rfl
  · show (List.filter _ _).length = 0
    rw [List.length_eq_zero, List.filter_eq_nil_iff]
    intro pr _
    split
    · rename_i i heq
      have hgf := processPair_prunedBy heq
      have hne := globalFeasible_ne_pruned7 (input.P_value + pr.1 * powerOf10 (input.k - 1))
        (input.Q_value + pr.2 * powerOf10 (input.k - 1)) input.N input.k
        input.N_digits.length input.sqrtN
      simp only [Nat.beq_eq_true_eq]
      intro hcontra
      subst hcontra
      exact hne hgf
    · simp

/-! Claim C2. -/

/-- The success contract: the reported factors multiply to `N` and are both
non-trivial. -/
def Good (s : AlgState) : Prop :=
  s.foundP * s.foundQ = s.N ∧ 1 < s.foundP ∧ 1 < s.foundQ

/-- One step either reports a branch found by the solution scan, or leaves
`success`, `foundP`, `foundQ` and `N` untouched. -/
lemma stepAlgorithm_cases (s : AlgState) :
    (∃ b, (expandFrontier s (s.step + 1)).find?
        (fun b => b.carry_in == 0 && checkSolution b s.N) = some b ∧
      stepAlgorithm s =
        { s with step := s.step + 1, frontier := expandFrontier s (s.step + 1),
                 success := true, foundP := b.P_value, foundQ := b.Q_value }) ∨
    ((stepAlgorithm s).success = s.success ∧ (stepAlgorithm s).foundP = s.foundP ∧
      (stepAlgorithm s).foundQ = s.foundQ ∧ (stepAlgorithm s).N = s.N) := by
  unfold stepAlgorithm
  split
  · right; exact ⟨rfl, rfl, rfl, rfl⟩
  · split
    · right; exact ⟨rfl, rfl, rfl, rfl⟩
    · split
      · split
        · rename_i b heq
          left; exact ⟨b, heq, rfl⟩
        · right; exact ⟨rfl, rfl, rfl, rfl⟩
      · right; exact ⟨rfl, rfl, rfl, rfl⟩

lemma stepAlgorithm_N (s : AlgState) : (stepAlgorithm s).N = s.N := by
  rcases stepAlgorithm_cases s with ⟨b, -, heq⟩ | ⟨-, -, -, h⟩
  · rw [heq]
  · exact h

lemma stepAlgorithm_good (s : AlgState) (hinv : s.success = true → Good s) :
    (stepAlgorithm s).success = true → Good (stepAlgorithm s) := by
  intro hs
  rcases stepAlgorithm_cases s with ⟨b, hfind, heq⟩ | ⟨h1, h2, h3, h4⟩
  · have hp := List.find?_some hfind
    simp only [checkSolution, Bool.and_eq_true, beq_iff_eq, decide_eq_true_eq] at hp
    rw [heq]
    exact ⟨hp.2.2, hp.2.1.1, hp.2.1.2⟩
  · rw [h1] at hs
    have hgood := hinv hs
    exact ⟨by rw [h2, h3, h4]; exact hgood.1, by rw [h2]; exact hgood.2.1,
      by rw [h3]; exact hgood.2.2⟩

lemma runSteps_good : ∀ (n : Nat) (s : AlgState), (s.success = true → Good s) →
    ((runSteps n s).success = true → Good (runSteps n s)) := by
  intro n
  induction n with
  | zero => intro s h; exact h
  | succ n ih => intro s h; exact ih (stepAlgorithm s) (stepAlgorithm_good s h)

lemma runSteps_N : ∀ (n : Nat) (s : AlgState), (runSteps n s).N = s.N := by
  intro n
  induction n with
  | zero => intro s; rfl
  | succ n ih => intro s; rw [runSteps, ih, stepAlgorithm_N]

/-- C2: for every run of the base-10 engine (any `p`, `q`, any number of
steps from the initial state), a state with `success = true` reports factors
with `foundP × foundQ = N` exactly and `foundP > 1`, `foundQ > 1`
(and `N` is the initialized product `p·q`). -/
theorem C2_no_false_positives (p q n : Nat) (s₀ : AlgState)
    (hinit : initializeAlgorithm p q = some s₀)
    (hs : (runSteps n s₀).success = true) :
    (runSteps n s₀).foundP * (runSteps n s₀).foundQ = (runSteps n s₀).N ∧
    (runSteps n s₀).N = p * q ∧
    1 < (runSteps n s₀).foundP ∧ 1 < (runSteps n s₀).foundQ := by
  simp only [initializeAlgorithm, Option.map_eq_some'] at hinit
  obtain ⟨r, -, hf⟩ := hinit
  have hsucc : s₀.success = false := by rw [← hf]
  have hN : s₀.N = p * q := by rw [← hf]
  have hgood := runSteps_good n s₀ (fun hcontra => absurd hcontra (by simp [hsucc])) hs
  exact ⟨hgood.1, by rw [runSteps_N, hN], hgood.2.1, hgood.2.2⟩

/-- Initial state of the successful run for `N = 21 = 3 × 7`. -/
def c2Init : AlgState :=
  { p := 3, q := 7, N := 21, sqrtN := 4, N_digits := [1, 2]
    frontier := [{ k := 1, p_history := [], q_history := [],
                   P_value := 0, Q_value := 0, carry_in := 0, pk := 0, qk := 0 }]
    step := 0, success := false, foundP := 0, foundQ := 0, done := false }

theorem C2_no_false_positives_witness :
    (runSteps 2 c2Init).foundP * (runSteps 2 c2Init).foundQ = (runSteps 2 c2Init).N ∧
    (runSteps 2 c2Init).N = 3 * 7 ∧
    1 < (runSteps 2 c2Init).foundP ∧ 1 < (runSteps 2 c2Init).foundQ :=
  C2_no_false_positives 3 7 2 c2Init (by decide) (by decide)

/-! Claim C5. -/

/-- The frontier invariant: every live node's partial values are exactly the
numbers represented by its digit histories, and history length equals the
number of steps taken. -/
def ValueInv (s : AlgState) : Prop :=
  ∀ b ∈ s.frontier,
    b.P_value = digitsToBigInt b.p_history ∧ b.Q_value = digitsToBigInt b.q_history ∧
    b.p_history.length = s.step ∧ b.q_history.length = s.step

lemma workFunction_value_inv {input : WorkInput} {s : Branch}
    (hs : s ∈ (workFunction input).states)
    (hP : input.P_value = digitsToBigInt input.p_history)
    (hQ : input.Q_value = digitsToBigInt input.q_history)
    (hlp : input.p_history.length + 1 = input.k)
    (hlq : input.q_history.length + 1 = input.k) :
    s.P_value = digitsToBigInt s.p_history ∧ s.Q_value = digitsToBigInt s.q_history ∧
    s.p_history.length = input.k ∧ s.q_history.length = input.k := by
  obtain ⟨pk, qk, -, -, hemit⟩ := mem_workFunction_states hs
  obtain ⟨hph, hqh, hPv, hQv, -, -, -⟩ := processPair_emit hemit
  have hkp : input.k - 1 = input.p_history.length := by omega
  have hkq : input.k - 1 = input.q_history.length := by omega
  refine ⟨?_, ?_, ?_, ?_⟩
  · rw [hPv, hph, digitsToBigInt_append_singleton, hP, hkp]
  · rw [hQv, hqh, digitsToBigInt_append_singleton, hQ, hkq]
  · rw [hph]; simp; omega
  · rw [hqh]; simp; omega

lemma expandFrontier_value_inv {s : AlgState} (h : ValueInv s) {b : Branch}
    (hb : b ∈ expandFrontier s (s.step + 1)) :
    b.P_value = digitsToBigInt b.p_history ∧ b.Q_value = digitsToBigInt b.q_history ∧
    b.p_history.length = s.step + 1 ∧ b.q_history.length = s.step + 1 := by
  unfold expandFrontier at hb
  rw [List.mem_flatMap] at hb
  obtain ⟨parent, hparent, hmem⟩ := hb
  have hpar := h parent hparent
  exact workFunction_value_inv hmem hpar.1 hpar.2.1
    (by simp [hpar.2.2.1]) (by simp [hpar.2.2.2])

lemma stepAlgorithm_value_inv (s : AlgState) (h : ValueInv s) :
    ValueInv (stepAlgorithm s) := by
  unfold stepAlgorithm
  split
  · exact h
  · split
    · exact h
    · split
      · split
        · intro b hb
          exact expandFrontier_value_inv h hb
        · exact h
      · intro b hb
        exact expandFrontier_value_inv h hb

lemma runSteps_value_inv : ∀ (n : Nat) (s : AlgState), ValueInv s →
    ValueInv (runSteps n s) := by
  intro n
  induction n with
  | zero => intro s h; exact h
  | succ n ih => intro s h; exact ih (stepAlgorithm s) (stepAlgorithm_value_inv s h)

/-- C5: in every frontier produced from the initial state by repeated
`stepAlgorithm`, each node's `P_value` (resp. `Q_value`) — which is only
ever updated incrementally by adding `digit × 10^(k−1)` — equals the number
represented by its `p_history` (resp. `q_history`) read as base-10 digits,
least-significant first. -/
theorem C5_incremental_values_correct (p q n : Nat) (s₀ : AlgState)
    (hinit : initializeAlgorithm p q = some s₀)
    (b : Branch) (hb : b ∈ (runSteps n s₀).frontier) :
    b.P_value = digitsToBigInt b.p_history ∧ b.Q_value = digitsToBigInt b.q_history := by
  simp only [initializeAlgorithm, Option.map_eq_some'] at hinit
  obtain ⟨r, -, hf⟩ := hinit
  have hinv : ValueInv s₀ := by
    rw [← hf]
    intro c hc
    simp only [List.mem_singleton] at hc
    subst hc
    exact ⟨rfl, rfl, rfl, rfl⟩
  have := runSteps_value_inv n s₀ hinv b hb
  exact ⟨this.1, this.2.1⟩

/-- Concrete frontier member for the C5 witness (the `(3, 7)` node of the
`N = 21` run after one step). -/
def c5Child : Branch :=
  { k := 2, p_history := [3], q_history := [7], P_value := 3, Q_value := 7,
    carry_in := 2, pk := 3, qk := 7 }

theorem C5_incremental_values_correct_witness :
    c5Child.P_value = digitsToBigInt c5Child.p_history ∧
    c5Child.Q_value = digitsToBigInt c5Child.q_history :=
  C5_incremental_values_correct 3 7 1 c2Init (by decide) c5Child (by decide)

/-! Claim C8. -/

/-- `target_digit` as read by the work functions. -/
def baseTarget (input : WorkInput) : Nat := input.N_digits.getD (input.k - 1) 0

/-- `total = sumOfProducts + carry_in` of `workFunctionBase`. -/
def baseTotal (input : WorkInput) (pk qk : Nat) : Nat :=
  sumOfProductsBase input.k input.p_history input.q_history pk qk + input.carry_in

/-- `carry_out = (total - target_digit) / base` of `workFunctionBase`. -/
def baseCarryOut (input : WorkInput) (base pk qk : Nat) : Nat :=
  (baseTotal input pk qk - baseTarget input) / base

/-- `new_P_value` of `workFunctionBase`. -/
def baseNewP (input : WorkInput) (base pk : Nat) : Nat :=
  input.P_value + pk * powerOfBase base (input.k - 1)

/-- `new_Q_value` of `workFunctionBase`. -/
def baseNewQ (input : WorkInput) (base qk : Nat) : Nat :=
  input.Q_value + qk * powerOfBase base (input.k - 1)

/-- `Pmax = new_P_value + M * base^k` of `workFunctionBase` check 5. -/
def basePmax (input : WorkInput) (base pk : Nat) : Nat :=
  baseNewP input base pk +
    (powerOfBase base (input.N_digits.length - input.k) - 1) * powerOfBase base input.k

/-- `Qmax = new_Q_value + M * base^k` of `workFunctionBase` check 5. -/
def baseQmax (input : WorkInput) (base qk : Nat) : Nat :=
  baseNewQ input base qk +
    (powerOfBase base (input.N_digits.length - input.k) - 1) * powerOfBase base input.k

/-- The verdicts the base-generalized loop body can produce: only checks
3, 4, 2 and 5 exist in `workFunctionBase` — in particular never check 1. -/
lemma processPairBase_prunedBy {input : WorkInput} {base pk qk j : Nat}
    (h : processPairBase input base pk qk = .prunedBy j) :
    j = 3 ∨ j = 4 ∨ j = 2 ∨ j = 5 := by
  simp only [processPairBase] at h
  repeat' split at h
  all_goals simp at h
  all_goals omega

/-- The base-generalized loop body never produces a symmetry verdict. -/
lemma processPairBase_not_pruned1 (input : WorkInput) (base pk qk : Nat) :
    (match processPairBase input base pk qk with
      | .prunedBy i => i == 1
      | _ => false) = false := by
  split
  · rename_i i heq
    rw [beq_eq_false_iff_ne]
    have := processPairBase_prunedBy heq
    omega
  · rfl

/-- A candidate pair that satisfies the recurrence, the carry envelope, and
the base-engine's remaining checks (3, 4, 2, 5) is emitted — no condition on
the relative order of `P_value` and `Q_value` appears anywhere. -/
lemma processPairBase_emits (input : WorkInput) (base pk qk : Nat)
    (_hk1 : 1 ≤ input.k) (hk2 : input.k ≤ input.N_digits.length)
    (ht : baseTarget input ≤ baseTotal input pk qk)
    (hmod : (baseTotal input pk qk - baseTarget input) % base = 0)
    (hcar : baseCarryOut input base pk qk ≤
      ((base - 1) * (base - 1) * input.k + input.carry_in) / base)
    (hlast : input.k = input.N_digits.length → baseCarryOut input base pk qk = 0)
    (h3 : baseNewP input base pk * baseNewQ input base qk ≤ input.N)
    (h4 : baseNewP input base pk ≤ input.sqrtN)
    (h2 : input.k = input.N_digits.length →
      1 < baseNewP input base pk ∧ 1 < baseNewQ input base qk ∧
      baseNewP input base pk * baseNewQ input base qk = input.N)
    (h5 : input.k < input.N_digits.length →
      input.N ≤ basePmax input base pk * baseQmax input base qk) :
    processPairBase input base pk qk = .emit (mkChildBase input base pk qk) := by
  simp only [baseTarget, baseTotal, baseCarryOut, baseNewP, baseNewQ, basePmax,
    baseQmax, sumOfProductsBase] at ht hmod hcar hlast h3 h4 h2 h5
  simp only [processPairBase, sumOfProductsBase]
  rw [if_neg (by omega)]
  rw [if_pos hmod]
  rw [if_neg ?hguard]
  case hguard =>
    rintro (hgt | ⟨hle, hne⟩)
    · omega
    · exact hne (hlast hle)
  rw [if_neg (by omega)]
  rw [if_neg (by omega)]
  rw [if_neg ?h6]
  case h6 =>
    rintro ⟨hr, hle⟩
    have := h2 (by omega)
    omega
  rw [if_neg ?h7]
  case h7 =>
    rintro ⟨hr, hne⟩
    exact hne (h2 (by omega)).2.2
  rw [if_neg ?h8]
  case h8 =>
    rintro ⟨hr, hlt⟩
    have := h5 (by omega)
    omega

/-- C8: the base-generalized work function omits the symmetry prune — for
every input node and every base, its pruning-statistics entry for check 1 is
always 0, and any candidate pair that passes the recurrence and the
remaining checks is emitted regardless of whether the extended `P_value`
exceeds the extended `Q_value`. -/
theorem C8_base_engine_omits_symmetry_prune :
    (∀ (input : WorkInput) (base : Nat),
      (workFunctionBase input base).pruningStats 1 = 0) ∧
    (∀ (input : WorkInput) (base pk qk : Nat),
      1 ≤ input.k → input.k ≤ input.N_digits.length →
      pk < base → qk < base →
      baseTarget input ≤ baseTotal input pk qk →
      (baseTotal input pk qk - baseTarget input) % base = 0 →
      baseCarryOut input base pk qk ≤
        ((base - 1) * (base - 1) * input.k + input.carry_in) / base →
      (input.k = input.N_digits.length → baseCarryOut input base pk qk = 0) →
      baseNewP input base pk * baseNewQ input base qk ≤ input.N →
      baseNewP input base pk ≤ input.sqrtN →
      (input.k = input.N_digits.length →
        1 < baseNewP input base pk ∧ 1 < baseNewQ input base qk ∧
        baseNewP input base pk * baseNewQ input base qk = input.N) →
      (input.k < input.N_digits.length →
        input.N ≤ basePmax input base pk * baseQmax input base qk) →
      mkChildBase input base pk qk ∈ (workFunctionBase input base).states) := by
  constructor
  · intro input base
    unfold workFunctionBase
    split
    · rfl
    · show (List.filter _ _).length = 0
      rw [List.length_eq_zero, List.filter_eq_nil_iff]
      intro pr _
      rw [processPairBase_not_pruned1]
      simp
  · intro input base pk qk hk1 hk2 hpk hqk ht hmod hcar hlast h3 h4 h2 h5
    have hproc := processPairBase_emits input base pk qk hk1 hk2 ht hmod hcar
      hlast h3 h4 h2 h5
    unfold workFunctionBase
    rw [if_neg (by omega)]
    exact List.mem_filterMap.mpr
      ⟨(pk, qk), mem_digitPairs.mpr ⟨hpk, hqk⟩, by rw [hproc]⟩

/-- Concrete input for the C8 witness: the initial node of a base-10 run on
`N = 437`. -/
def c8Input : WorkInput :=
  { k := 1, p_history := [], q_history := [], P_value := 0, Q_value := 0,
    carry_in := 0, N_digits := [7, 3, 4], N := 437, sqrtN := 20 }

/-- Witness: the pair `(9, 3)` — whose extended values satisfy
`P_value = 9 > 3 = Q_value` — is emitted by the base-generalized work
function, and the check-1 statistics entry is 0. -/
theorem C8_base_engine_omits_symmetry_prune_witness :
    (workFunctionBase c8Input 10).pruningStats 1 = 0 ∧
    mkChildBase c8Input 10 9 3 ∈ (workFunctionBase c8Input 10).states ∧
    (mkChildBase c8Input 10 9 3).Q_value < (mkChildBase c8Input 10 9 3).P_value := by
  refine ⟨C8_base_engine_omits_symmetry_prune.1 c8Input 10,
    C8_base_engine_omits_symmetry_prune.2 c8Input 10 9 3 (by decide) (by decide)
      (by decide) (by decide) (by decide) (by decide) (by decide) (by decide)
      (by decide) (by decide) (by decide) (by decide), by decide⟩

/-! Claim C10. -/

lemma toBaseDigitsAux_zero (fuel base : Nat) : toBaseDigitsAux fuel base 0 = [] := by
  cases fuel <;> simp [toBaseDigitsAux]

/-- Correctness of the source's digit-extraction loop, for the bases its
caller admits: the digits evaluate back to `n`, are all `< base`, and (for
`n > 0`) the list is non-empty with a non-zero most significant digit. -/
lemma toBaseDigitsAux_spec (base : Nat) (hb : 2 ≤ base) :
    ∀ (fuel n : Nat), n ≤ fuel →
      baseDigitsVal base (toBaseDigitsAux fuel base n) = n ∧
      (∀ d ∈ toBaseDigitsAux fuel base n, d < base) ∧
      (0 < n → toBaseDigitsAux fuel base n ≠ [] ∧
        (toBaseDigitsAux fuel base n).getLast? ≠ some 0) := by
  intro fuel
  induction fuel with
  | zero =>
    intro n hn
    have h0 : n = 0 := by omega
    subst h0
    exact ⟨rfl, by simp [toBaseDigitsAux], by omega⟩
  | succ fuel ih =>
    intro n hn
    by_cases h0 : n = 0
    · subst h0
      exact ⟨rfl, by simp [toBaseDigitsAux], by omega⟩
    · have hdiv : n / base < n := Nat.div_lt_self (by omega) (by omega)
      obtain ⟨hval, hmem, hlast⟩ := ih (n / base) (by omega)
      simp only [toBaseDigitsAux, if_neg h0]
      refine ⟨?_, ?_, fun _ => ⟨by simp, ?_⟩⟩
      · simp only [baseDigitsVal, hval]
        exact Nat.mod_add_div n base
      · intro d hd
        rcases List.mem_cons.mp hd with hd | hd
        · subst hd; exact Nat.mod_lt n (by omega)
        · exact hmem d hd
      · by_cases hq : n / base = 0
        · rw [hq, toBaseDigitsAux_zero]
          have hlt : n < base := (Nat.div_eq_zero_iff (by omega)).mp hq
          simp [Nat.mod_eq_of_lt hlt]
          omega
        · obtain ⟨hne, hl⟩ := hlast (by omega)
          cases hrec : toBaseDigitsAux fuel base (n / base) with
          | nil => exact absurd hrec hne
          | cons a l =>
            rw [List.getLast?_cons_cons]
            rw [hrec] at hl
            exact hl

/-- C10: `numberToBaseDigits` accepts exactly the bases 2-36: in range it
returns the LSD-first base-`base` digit sequence of `n` (value-correct, all
digits `< base`, `[0]` for `n = 0`, no leading zero otherwise); out of range
it throws, and so initializing a base-generalized run with base ≥ 37 fails
with the same error. -/
theorem C10_base_digit_conversion (n base : Nat) :
    (2 ≤ base → base ≤ 36 →
      ∃ ds, numberToBaseDigits n base = .ok ds ∧
        baseDigitsVal base ds = n ∧
        (∀ d ∈ ds, d < base) ∧
        (n = 0 → ds = [0]) ∧
        (0 < n → ds.getLast? ≠ some 0)) ∧
    (base < 2 ∨ 36 < base → numberToBaseDigits n base = .error (baseRangeError base)) ∧
    (∀ p q, 37 ≤ base → initializeAlgorithmBase p q base = .error (baseRangeError base)) := by
  refine ⟨?_, ?_, ?_⟩
  · intro hb2 hb36
    by_cases h0 : n = 0
    · subst h0
      refine ⟨[0], ?_, by simp [baseDigitsVal], by intro d hd; simp at hd; omega,
        fun _ => rfl, by omega⟩
      simp [numberToBaseDigits, baseRangeError]
      omega
    · obtain ⟨hval, hmem, hlast⟩ := toBaseDigitsAux_spec base hb2 n n (Nat.le_refl n)
      obtain ⟨hne, hl⟩ := hlast (by omega)
      refine ⟨toBaseDigits base n, ?_, hval, hmem, by omega, fun _ => hl⟩
      simp only [numberToBaseDigits, toBaseDigits]
      rw [if_neg (by omega), if_neg h0]
      cases hrec : toBaseDigitsAux n base n with
      | nil => exact absurd hrec hne
      | cons a l => simp
  · intro h
    simp only [numberToBaseDigits]
    rw [if_pos h]
  · intro p q h37
    have herr : numberToBaseDigits (p * q) base = .error (baseRangeError base) := by
      simp only [numberToBaseDigits]
      rw [if_pos (by omega)]
    simp only [initializeAlgorithmBase, herr]

theorem C10_base_digit_conversion_witness :
    (∃ ds, numberToBaseDigits 38009 10 = .ok ds ∧
      baseDigitsVal 10 ds = 38009 ∧
      (∀ d ∈ ds, d < 10) ∧
      (38009 = 0 → ds = [0]) ∧
      (0 < 38009 → ds.getLast? ≠ some 0)) ∧
    numberToBaseDigits 50 37 = .error (baseRangeError 37) ∧
    initializeAlgorithmBase 3 5 37 = .error (baseRangeError 37) :=
  ⟨(C10_base_digit_conversion 38009 10).1 (by decide) (by decide),
    (C10_base_digit_conversion 50 37).2.1 (by decide),
    (C10_base_digit_conversion 50 37).2.2 3 5 (by decide)⟩

/-! Claim C4. -/

/-- C4: for every position `k ≥ 1` and digit histories of length `k − 1`
(LSD-first digits `< 10`), the incrementally computed `sumOfProducts` of the
base-10 work function — the cached interior `baseSum` for `i = 2..k−1` plus
the boundary terms `p1·qk` and `pk·q1`, or `pk·qk` alone at `k = 1` — equals
the definitional convolution `Σ_{i=1..k}` (digit `i` of P)·(digit `k−i+1`
of Q). -/
theorem C4_sumOfProducts_eq_convolution (k : Nat) (ph qh : List Nat) (pk qk : Nat)
    (hk : 1 ≤ k) (hlp : ph.length + 1 = k) (hlq : qh.length + 1 = k)
    (hdp : ∀ d ∈ ph, d < 10) (hdq : ∀ d ∈ qh, d < 10)
    (hpk : pk < 10) (hqk : qk < 10) :
    sumOfProductsOf k ph qh pk qk = convolutionSum k ph qh pk qk := by
  have hget_p : ∀ j, j < ph.length → ph.getD j 0 < 10 := by
    intro j hj
    rw [List.getD_eq_getElem ph 0 hj]
    exact hdp _ (List.getElem_mem hj)
  have hget_q : ∀ j, j < qh.length → qh.getD j 0 < 10 := by
    intro j hj
    rw [List.getD_eq_getElem qh 0 hj]
    exact hdq _ (List.getElem_mem hj)
  rcases Nat.lt_or_ge k 2 with hk2 | hk2
  · have hk1 : k = 1 := by omega
    subst hk1
    obtain rfl : ph = [] := List.length_eq_zero.mp (by omega)
    obtain rfl : qh = [] := List.length_eq_zero.mp (by omega)
    simp [sumOfProductsOf, convolutionSum, List.range_succ,
      multiplyDigits_eq pk hpk qk hqk]
  · obtain ⟨m, rfl⟩ : ∃ m, k = m + 2 := ⟨k - 2, by omega⟩
    have hlp' : ph.length = m + 1 := by omega
    have hlq' : qh.length = m + 1 := by omega
    have hbase : baseSumOf (m + 2) ph qh =
        ((List.range m).map (fun t => ph.getD (t + 1) 0 * qh.getD (m - t) 0)).sum := by
      unfold baseSumOf
      rw [foldl_add_eq, Nat.zero_add]
      have hm2 : m + 2 - 2 = m := by omega
      rw [hm2, List.range'_eq_map_range, List.map_map]
      congr 1
      refine List.map_congr_left fun t ht => ?_
      have htm : t < m := List.mem_range.mp ht
      simp only [Function.comp_apply]
      rw [if_pos ⟨by omega, by omega⟩]
      rw [multiplyDigits_eq _ (hget_p _ (by omega)) _ (hget_q _ (by omega))]
      have h1 : 2 + t - 1 = t + 1 := by omega
      have h2 : m + 2 - (2 + t) = m - t := by omega
      rw [h1, h2]
    have hconv : convolutionSum (m + 2) ph qh pk qk =
        ph.getD 0 0 * qk +
          ((List.range m).map (fun t => ph.getD (t + 1) 0 * qh.getD (m - t) 0)).sum +
          pk * qh.getD 0 0 := by
      unfold convolutionSum
      rw [List.range_succ, List.map_append, List.sum_append,
        List.range_succ_eq_map, List.map_cons, List.sum_cons, List.map_map]
      have hmid : List.map
          ((fun j => (if j + 1 = m + 2 then pk else ph.getD j 0) *
            (if j = 0 then qk else qh.getD (m + 2 - j - 1) 0)) ∘ Nat.succ)
          (List.range m) =
          List.map (fun t => ph.getD (t + 1) 0 * qh.getD (m - t) 0) (List.range m) := by
        refine List.map_congr_left fun t ht => ?_
        have htm : t < m := List.mem_range.mp ht
        simp only [Function.comp_apply, Nat.succ_eq_add_one]
        rw [if_neg (by omega), if_neg (by omega)]
        have h2 : m + 2 - (t + 1) - 1 = m - t := by omega
        rw [h2]
      rw [hmid, List.map_singleton, List.sum_singleton]
      rw [if_neg (by omega : ¬ (0:Nat) + 1 = m + 2),
        if_pos (show (0:Nat) = 0 from rfl),
        if_pos (by omega : m + 1 + 1 = m + 2), if_neg (by omega : ¬ m + 1 = 0)]
      have hq0 : m + 2 - (m + 1) - 1 = 0 := by omega
      rw [hq0]
    simp only [sumOfProductsOf, if_neg (by omega : ¬ m + 2 = 1)]
    rw [hbase, hconv, multiplyDigits_eq _ (hget_p 0 (by omega)) _ hqk,
      multiplyDigits_eq _ hpk _ (hget_q 0 (by omega))]
    ring

theorem C4_sumOfProducts_eq_convolution_witness :
    sumOfProductsOf 3 [3, 1] [7, 2] 5 4 = convolutionSum 3 [3, 1] [7, 2] 5 4 :=
  C4_sumOfProducts_eq_convolution 3 [3, 1] [7, 2] 5 4 (by decide) (by decide)
    (by decide) (by decide) (by decide) (by decide) (by decide)

/-! Claim C9. -/

/-- The digit sequence of `N` as every engine initializer derives it
(`natToDigits10 N = canonicalDigits 10 N`; `numberToBaseDigits` returns
`canonicalDigits base N` for every admitted base). -/
def canonicalDigits (base N : Nat) : List Nat :=
  if N = 0 then [0] else toBaseDigits base N

/-- Well-formedness of a work-function input, as established by the engine
for every reachable node: histories one digit shorter than the position,
digits in range, partial values the numbers the histories represent, and
`N_digits` the digit sequence of `N`. -/
def wellFormedInput (base : Nat) (i : WorkInput) : Prop :=
  1 ≤ i.k ∧
  i.p_history.length + 1 = i.k ∧ i.q_history.length + 1 = i.k ∧
  (∀ d ∈ i.p_history, d < base) ∧ (∀ d ∈ i.q_history, d < base) ∧
  i.P_value = baseDigitsVal base i.p_history ∧
  i.Q_value = baseDigitsVal base i.q_history ∧
  i.N_digits = canonicalDigits base i.N

/-- C9: the work functions and the pruning cascade are deterministic — on
well-formed (engine-reachable) nodes, the child states and pruning verdicts
depend only on `(k, P_value, Q_value, carry_in, N, √N, totalDigits, base)`:
two nodes agreeing on those data are equal (their digit histories are the
unique base-`base` representations of the shared partial values), so both
`workFunction` and `workFunctionBase` — states and statistics alike —
produce identical results on them. -/
theorem C9_work_function_deterministic (base : Nat) (i₁ i₂ : WorkInput)
    (h₁ : wellFormedInput base i₁) (h₂ : wellFormedInput base i₂)
    (hk : i₁.k = i₂.k) (hP : i₁.P_value = i₂.P_value) (hQ : i₁.Q_value = i₂.Q_value)
    (hc : i₁.carry_in = i₂.carry_in) (hN : i₁.N = i₂.N) (hs : i₁.sqrtN = i₂.sqrtN) :
    i₁ = i₂ ∧ workFunction i₁ = workFunction i₂ ∧
    workFunctionBase i₁ base = workFunctionBase i₂ base := by
  obtain ⟨-, hlp₁, hlq₁, hdp₁, hdq₁, hPv₁, hQv₁, hNd₁⟩ := h₁
  obtain ⟨-, hlp₂, hlq₂, hdp₂, hdq₂, hPv₂, hQv₂, hNd₂⟩ := h₂
  have hph : i₁.p_history = i₂.p_history :=
    baseDigits_unique base _ _ (by omega) hdp₁ hdp₂ (by rw [← hPv₁, ← hPv₂, hP])
  have hqh : i₁.q_history = i₂.q_history :=
    baseDigits_unique base _ _ (by omega) hdq₁ hdq₂ (by rw [← hQv₁, ← hQv₂, hQ])
  have hNd : i₁.N_digits = i₂.N_digits := by rw [hNd₁, hNd₂, hN]
  have heq : i₁ = i₂ := by
    obtain ⟨k₁, ph₁, qh₁, P₁, Q₁, c₁, Nd₁, N₁, s₁⟩ := i₁
    obtain ⟨k₂, ph₂, qh₂, P₂, Q₂, c₂, Nd₂, N₂, s₂⟩ := i₂
    exact WorkInput.mk.injEq .. ▸ ⟨hk, hph, hqh, hP, hQ, hc, hNd, hN, hs⟩
  exact ⟨heq, by rw [heq], by rw [heq]⟩

/-- Concrete well-formed node for the C9 witness (the surviving node of the
`N = 21` run at position 2). -/
def c9Input : WorkInput :=
  { k := 2, p_history := [3], q_history := [7], P_value := 3, Q_value := 7,
    carry_in := 2, N_digits := [1, 2], N := 21, sqrtN := 4 }

theorem C9_work_function_deterministic_witness :
    c9Input = c9Input ∧ workFunction c9Input = workFunction c9Input ∧
    workFunctionBase c9Input 10 = workFunctionBase c9Input 10 :=
  C9_work_function_deterministic 10 c9Input c9Input
    (by unfold wellFormedInput; decide) (by unfold wellFormedInput; decide)
    rfl rfl rfl rfl rfl rfl

end IVI
